import Mathlib

/-!
Verification of the EPUB container editor (`package epub`): an in-memory
model of a zip archive plus its OPF package descriptor, with operations to
add/remove chapters and images, edit HTML entries, and re-serialize the
archive.  Strings are modelled as Lean `String` (lists of characters);
byte contents are modelled as `String`; zip compression methods are the
numeric constants of the zip format (`Store = 0`, `Deflate = 8`).
-/

namespace EpubSpec

/-! ## Character and list utilities -/

/-- Tests whether `pat` is a leading segment of `s` (Go `strings.HasPrefix`
on the character lists). -/
def startsWithL : List Char → List Char → Bool
  | _, [] => true
  | [], _ :: _ => false
  | c :: s, d :: t => c = d && startsWithL s t

/-- Tests whether `pat` is a trailing segment of `s` (Go `strings.HasSuffix`). -/
def hasSuffixL (s pat : List Char) : Bool :=
  startsWithL s.reverse pat.reverse

/-- Tests whether `pat` occurs contiguously inside `s` (Go `strings.Contains`). -/
def containsSub : List Char → List Char → Bool
  | s, pat =>
    if startsWithL s pat then true
    else
      match s with
      | [] => false
      | _ :: rest => containsSub rest pat

/-- Go `strings.HasPrefix` on strings. -/
def strHasPrefix (s pat : String) : Bool := startsWithL s.data pat.data

/-- Go `strings.HasSuffix` on strings. -/
def strHasSuffix (s pat : String) : Bool := hasSuffixL s.data pat.data

/-- Go `strings.Contains` on strings. -/
def strContains (s pat : String) : Bool := containsSub s.data pat.data

/-- ASCII lower-casing of one character (Go `strings.ToLower`, restricted to
the ASCII range, which is all the code relies on). -/
def lowerChar (c : Char) : Char :=
  if 'A' ≤ c ∧ c ≤ 'Z' then Char.ofNat (c.toNat + 32) else c

/-- Go `strings.ToLower` on strings (ASCII range). -/
def strToLower (s : String) : String := ⟨s.data.map lowerChar⟩

/-! ## Path arithmetic (Go `path` package)

The Go standard library's slash-separated path routines, translated at the
level of path segments: `path.Clean` splits on `'/'`, drops empty and `"."`
segments, resolves `".."` against a segment stack, and joins the result. -/

/-- Splits a character list at every `'/'` (Go `strings.Split(s, "/")`). -/
def splitSegs : List Char → List (List Char)
  | [] => [[]]
  | c :: rest =>
    let s := splitSegs rest
    if c = '/' then [] :: s
    else (c :: s.headD []) :: s.tail

/-- Joins segments with `'/'` separators (Go `strings.Join(l, "/")`). -/
def joinSegs : List (List Char) → List Char
  | [] => []
  | [s] => s
  | s :: rest => s ++ '/' :: joinSegs rest

/-- Processes one path segment of `path.Clean` against the output stack
(head of `stack` is the most recently emitted segment): empty and `"."`
segments are dropped, `".."` pops a non-`".."` segment, accumulates after a
leading run of `".."` when the path is not rooted, and disappears at the
root of a rooted path; any other segment is pushed. -/
def processSeg (rooted : Bool) (stack : List (List Char)) (s : List Char) :
    List (List Char) :=
  if s = [] ∨ s = ['.'] then stack
  else if s = ['.', '.'] then
    match stack with
    | t :: rest => if t = ['.', '.'] then s :: t :: rest else rest
    | [] => if rooted then [] else [['.', '.']]
  else s :: stack

/-- Go `path.Clean` on a character list: lexical cleaning of a
slash-separated path. -/
def goClean (l : List Char) : List Char :=
  if l = [] then ['.']
  else
    let rooted : Bool := decide (l.head? = some '/')
    let stack := ((splitSegs l).foldl (processSeg rooted) []).reverse
    let out := (if rooted then ['/'] else []) ++ joinSegs stack
    if out = [] then ['.'] else out

/-- Go `path.Clean` on strings. -/
def cleanPath (s : String) : String := ⟨goClean s.data⟩

/-- Replaces every backslash with a forward slash
(`strings.ReplaceAll(pth, "\x5c", "/")`). -/
def replBackslash (l : List Char) : List Char :=
  l.map fun c => if c = '\\' then '/' else c

/-- normalizeZipPath: converts backslashes to forward slashes and cleans the
path (source `normalizeZipPath`). -/
def normalizeZipPath (pth : String) : String :=
  ⟨goClean (replBackslash pth.data)⟩

/-- Go `path.Dir`: everything up to and including the final slash, cleaned;
`"."` when there is no slash. -/
def pathDir (s : String) : String :=
  ⟨goClean ((s.data.reverse.dropWhile (fun c => ¬(c = '/'))).reverse)⟩

/-- Go `path.Base`: the last element of the path after trailing slashes are
removed; `"."` for the empty path and `"/"` for an all-slash path. -/
def pathBase (s : String) : String :=
  if s.data = [] then "."
  else
    let l := (s.data.reverse.dropWhile (fun c => c = '/')).reverse
    if l = [] then "/"
    else ⟨(l.reverse.takeWhile (fun c => ¬(c = '/'))).reverse⟩

/-- Go `path.Ext`: the suffix of the last path element starting at its
final dot, or the empty string when that element has no dot. -/
def pathExt (s : String) : String :=
  let seg := s.data.reverse.takeWhile (fun c => ¬(c = '/'))
  if seg.contains '.' then
    ⟨((seg.takeWhile (fun c => ¬(c = '.'))) ++ ['.']).reverse⟩
  else ""

/-- Go `path.IsAbs`: a path is absolute when it begins with a slash. -/
def isAbsPath (s : String) : Bool := strHasPrefix s "/"

/-- Go `path.Join` restricted to two elements: empty elements are dropped
and the joined path is cleaned; all-empty input yields the empty string. -/
def pathJoin (a b : String) : String :=
  if a ≠ "" then cleanPath (a ++ "/" ++ b)
  else if b ≠ "" then cleanPath b
  else ""

/-! ## Decimal rendering (`fmt.Sprintf` `%d` on a non-negative counter) -/

/-- Maps a decimal digit to its ASCII character. -/
def digitChar (d : Nat) : Char := Char.ofNat (48 + d)

/-- Fuelled most-significant-first decimal digit expansion; `fuel` bounds the
recursion depth so the definition is structurally recursive. -/
def decDigitsAux : Nat → Nat → List Char
  | 0, _ => []
  | fuel + 1, n =>
    if n < 10 then [digitChar n]
    else decDigitsAux fuel (n / 10) ++ [digitChar (n % 10)]

/-- Decimal rendering of a natural number, as produced by `%d`. -/
def decDigits (n : Nat) : List Char := decDigitsAux (n + 1) n

/-! ## Manifest id generation (source `sanitizeID`, `generateID`) -/

/-- Tests membership in `[a-z0-9]`, the character class kept by the
`[^a-z0-9]+` sanitizing regular expression. -/
def isLowerAlnum (c : Char) : Bool :=
  ('a' ≤ c && c ≤ 'z') || ('0' ≤ c && c ≤ '9')

/-- Collapses consecutive dashes into a single dash; applied after every
character outside `[a-z0-9]` has been mapped to a dash, this realizes the
replacement of each `[^a-z0-9]+` run by one dash. -/
def squeezeDashes : List Char → List Char
  | [] => []
  | [c] => [c]
  | c1 :: c2 :: rest =>
    if c1 = '-' ∧ c2 = '-' then squeezeDashes (c2 :: rest)
    else c1 :: squeezeDashes (c2 :: rest)

/-- Removes leading and trailing dashes (Go `strings.Trim(base, "-")`). -/
def trimDashes (l : List Char) : List Char :=
  ((l.dropWhile (fun c => c = '-')).reverse.dropWhile (fun c => c = '-')).reverse

/-- sanitizeID: lower-cases the base name, replaces each maximal run of
characters outside `[a-z0-9]` with a dash, trims dashes at both ends, and
falls back to `"chapter"` when the input or the result is empty. -/
def sanitizeID (base : String) : String :=
  if base = "" then "chapter"
  else
    let mapped := (base.data.map lowerChar).map
      fun c => if isLowerAlnum c then c else '-'
    let trimmed := trimDashes (squeezeDashes mapped)
    if trimmed = [] then "chapter" else ⟨trimmed⟩

/-- generateID: sanitizes the base name, increments the id counter, and
renders `item-<base>-<counter>`; returns the id with the new counter. -/
def generateID (base : String) (idCounter : Nat) : String × Nat :=
  let b := sanitizeID base
  let c := idCounter + 1
  (⟨"item-".data ++ b.data ++ "-".data ++ decDigits c⟩, c)

/-! ## Data model -/

/-- One item of the OPF manifest (source `opfManifestItem`). -/
structure ManifestItem where
  id : String
  href : String
  mediaType : String
  properties : String := ""
  fallback : String := ""
  mediaOverlay : String := ""
deriving DecidableEq

/-- One itemref of the OPF spine (source `opfSpineItem`). -/
structure SpineItem where
  idref : String
  linear : String := ""
  properties : String := ""
deriving DecidableEq

/-- The parsed OPF package (source `opfPackage`); metadata and guide are
kept as opaque blobs that are only round-tripped. -/
structure OpfPackage where
  metadata : String := ""
  manifest : List ManifestItem := []
  spine : List SpineItem := []
  guide : Option String := none
deriving DecidableEq

/-- One archive member held in memory (source `zipEntry`); `key` records
the normalized path under which `entryIndex` stores the entry. -/
structure ZipEntry where
  name : String
  key : String
  method : Nat
  data : String := ""
  isDir : Bool := false
  removed : Bool := false
deriving DecidableEq

/-- The in-memory EPUB model (source `Epub`).  The Go `entryIndex` map is
represented implicitly: looking up a key returns the entry most recently
appended under that key, matching the map's last-write-wins updates. -/
structure Epub where
  entries : List ZipEntry := []
  opfPath : String := ""
  opfDir : String := ""
  opfDoc : Option OpfPackage := none
  idCounter : Nat := 0
deriving DecidableEq

/-- Finds the first entry with the given key in a reversed entry list. -/
def lookupRev : List ZipEntry → String → Option ZipEntry
  | [], _ => none
  | e :: rest, k => if e.key = k then some e else lookupRev rest k

/-- entryIndex lookup: the entry most recently appended under key `k`. -/
def lookupIndex (p : Epub) (k : String) : Option ZipEntry :=
  lookupRev p.entries.reverse k

/-- Sets the `removed` flag of the first entry with key `k` in a reversed
entry list. -/
def setRemovedRev : List ZipEntry → String → List ZipEntry
  | [], _ => []
  | e :: rest, k =>
    if e.key = k then { e with removed := true } :: rest
    else e :: setRemovedRev rest k

/-- Tombstones the entry that `entryIndex` holds under key `k`. -/
def markRemoved (p : Epub) (k : String) : Epub :=
  { p with entries := (setRemovedRev p.entries.reverse k).reverse }

/-- Replaces the `data` of the first entry with key `k` in a reversed entry
list. -/
def setDataRev : List ZipEntry → String → String → List ZipEntry
  | [], _, _ => []
  | e :: rest, k, d =>
    if e.key = k then { e with data := d } :: rest
    else e :: setDataRev rest k d

/-- Overwrites the `data` of the entry that `entryIndex` holds under key
`k`. -/
def setData (p : Epub) (k d : String) : Epub :=
  { p with entries := (setDataRev p.entries.reverse k d).reverse }

/-! ## Classification helpers -/

/-- isHTMLEntry: the entry's original name ends, case-insensitively, in
`.html`, `.xhtml` or `.htm`. -/
def isHTMLEntry (e : ZipEntry) : Bool :=
  strHasSuffix (strToLower e.name) ".html" ||
  strHasSuffix (strToLower e.name) ".xhtml" ||
  strHasSuffix (strToLower e.name) ".htm"

/-- isOPFFile: the member name ends, case-insensitively, in `.opf`. -/
def isOPFFile (name : String) : Bool :=
  strHasSuffix (strToLower name) ".opf"

/-! ## OPF bookkeeping -/

/-- hrefForOPF: expresses a normalized archive path relative to the OPF
directory; with an empty OPF directory the path is returned as is, and a
path not nested under the OPF directory is an error. -/
def hrefForOPF (opfDir norm : String) : Except String String :=
  if opfDir = "" then .ok norm
  else if strHasPrefix norm (opfDir ++ "/") then
    .ok ⟨norm.data.drop (opfDir.length + 1)⟩
  else .error ("file " ++ norm ++ " is not under OPF directory " ++ opfDir)

/-- addToOPF: appends a manifest item for the chapter (media type
`application/xhtml+xml`, freshly generated id) and inserts a spine itemref
for that id at `spineIndex`, appending when the index is negative or past
the end.  Returns the mutated model with a `none` error, or the untouched
model with the error message. -/
def addToOPF (p : Epub) (norm : String) (spineIndex : Int) :
    Epub × Option String :=
  match p.opfDoc with
  | none => (p, some "content.opf not loaded")
  | some doc =>
    match hrefForOPF p.opfDir norm with
    | .error e => (p, some e)
    | .ok href =>
      let g := generateID (pathBase norm) p.idCounter
      let item : ManifestItem :=
        { id := g.1, href := href, mediaType := "application/xhtml+xml" }
      let itemRef : SpineItem := { idref := g.1 }
      let spine :=
        if spineIndex < 0 ∨ (doc.spine.length : Int) ≤ spineIndex then
          doc.spine ++ [itemRef]
        else
          doc.spine.take spineIndex.toNat ++ itemRef ::
            doc.spine.drop spineIndex.toNat
      ({ p with
        opfDoc := some { doc with
          manifest := doc.manifest ++ [item], spine := spine },
        idCounter := g.2 }, none)

/-- removeFromOPF: drops every manifest item whose normalized href equals
the normalized removal href, collecting the ids of the dropped items, then
drops every spine itemref whose idref is among the collected ids.  The two
passes are the source's accumulating loops. -/
def removeFromOPF (p : Epub) (href : String) : Epub :=
  match p.opfDoc with
  | none => p
  | some doc =>
    let acc := doc.manifest.foldl
      (fun (acc : List String × List ManifestItem) item =>
        if normalizeZipPath item.href = normalizeZipPath href then
          (acc.1 ++ [item.id], acc.2)
        else (acc.1, acc.2 ++ [item]))
      ([], [])
    let spine := doc.spine.foldl
      (fun (sp : List SpineItem) item =>
        if acc.1.contains item.idref then sp else sp ++ [item])
      []
    { p with opfDoc := some { doc with manifest := acc.2, spine := spine } }

/-- addImageToManifest: appends a manifest item for an imported image, with
the media type derived from the file extension (a fixed lookup defaulting
to `image/jpeg`). -/
def addImageToManifest (p : Epub) (norm : String) : Epub × Option String :=
  match p.opfDoc with
  | none => (p, some "content.opf not loaded")
  | some doc =>
    match hrefForOPF p.opfDir norm with
    | .error e => (p, some e)
    | .ok href =>
      let ext := strToLower (pathExt norm)
      let mediaType :=
        if ext = ".png" then "image/png"
        else if ext = ".gif" then "image/gif"
        else if ext = ".svg" then "image/svg+xml"
        else if ext = ".webp" then "image/webp"
        else if ext = ".bmp" then "image/bmp"
        else "image/jpeg"
      let g := generateID (pathBase norm) p.idCounter
      let item : ManifestItem :=
        { id := g.1, href := href, mediaType := mediaType }
      ({ p with
        opfDoc := some { doc with manifest := doc.manifest ++ [item] },
        idCounter := g.2 }, none)

/-! ## Mutating archive operations -/

/-- ensureDirectories' walk over the slash-separated parts of the parent
directory, accumulating the ancestor path in `curr0` and appending a
directory entry (name with a trailing slash, `Store` method) for each
ancestor missing from the index. -/
def ensureDirsLoop (curr0 : String) (p : Epub) : List String → Epub
  | [] => p
  | part :: rest =>
    let curr := if curr0 = "" then part else curr0 ++ "/" ++ part
    if (lookupIndex p curr).isSome then ensureDirsLoop curr p rest
    else
      ensureDirsLoop curr
        { p with entries := p.entries ++
          [{ name := curr ++ "/", key := curr, method := 0, isDir := true }] }
        rest

/-- ensureDirectories: walks the parent directories of a normalized path
from the outermost inwards, synthesizing each missing ancestor. -/
def ensureDirectories (p : Epub) (norm : String) : Epub :=
  let dir := normalizeZipPath (pathDir norm)
  if dir = "." ∨ dir = "" then p
  else ensureDirsLoop "" p ((splitSegs dir.data).map (String.mk))

/-- AddChapter: validates the path, rejects an existing target, synthesizes
parent directories, appends the chapter entry (`Deflate` method) and then
registers it in the OPF manifest and spine. -/
def AddChapter (p : Epub) (filePath html : String) (spineIndex : Int) :
    Epub × Option String :=
  if filePath = "" then (p, some "chapter path cannot be empty")
  else
    let norm := normalizeZipPath filePath
    if (lookupIndex p norm).isSome then
      (p, some ("file already exists: " ++ filePath))
    else
      let p1 := ensureDirectories p norm
      let p2 := { p1 with entries := p1.entries ++
        [{ name := norm, key := norm, method := 8, data := html }] }
      addToOPF p2 norm spineIndex

/-- removeEntry: a missing key is an error; an already tombstoned entry is
a silent success; otherwise the entry is tombstoned and, when an OPF
document is loaded, the manifest/spine cascade runs for the entry's href. -/
def removeEntry (p : Epub) (norm : String) : Epub × Option String :=
  match lookupIndex p norm with
  | none => (p, some ("file does not exist: " ++ norm))
  | some entry =>
    if entry.removed then (p, none)
    else
      let p1 := markRemoved p norm
      match p1.opfDoc with
      | none => (p1, none)
      | some _ =>
        match hrefForOPF p1.opfDir norm with
        | .error e => (p1, some e)
        | .ok href => (removeFromOPF p1 href, none)

/-- RemoveFileByName: removes the entry stored under the normalized path. -/
def RemoveFileByName (p : Epub) (filePath : String) : Epub × Option String :=
  removeEntry p (normalizeZipPath filePath)

/-- addImageFile: a no-op success when the target path already exists;
otherwise synthesizes directories, appends the image entry (`Deflate`
method) and registers it in the manifest. -/
def addImageFile (p : Epub) (epubImgPath imgData : String) :
    Epub × Option String :=
  let norm := normalizeZipPath epubImgPath
  if (lookupIndex p norm).isSome then (p, none)
  else
    let p1 := ensureDirectories p norm
    let p2 := { p1 with entries := p1.entries ++
      [{ name := norm, key := norm, method := 8, data := imgData }] }
    addImageToManifest p2 norm

/-! ## Content editing

The Go code ranges over the `entryIndex` map; the model iterates the entry
list in insertion order, which visits the same entries whenever normalized
paths are unique keys. -/

/-- Go `strings.Count`: the number of non-overlapping occurrences of a
non-empty pattern (the empty pattern is diverted before this is called). -/
def countOcc (pat : List Char) : List Char → Nat
  | [] => 0
  | c :: rest =>
    if h : pat ≠ [] ∧ startsWithL (c :: rest) pat then
      1 + countOcc pat ((c :: rest).drop pat.length)
    else countOcc pat rest
termination_by l => l.length
decreasing_by
  · simp only [List.length_drop, List.length_cons]
    have : 1 ≤ pat.length := List.length_pos.mpr h.1
    omega
  · simp

/-- Go `strings.ReplaceAll` for a non-empty pattern. -/
def replaceOcc (pat rep : List Char) : List Char → List Char
  | [] => []
  | c :: rest =>
    if h : pat ≠ [] ∧ startsWithL (c :: rest) pat then
      rep ++ replaceOcc pat rep ((c :: rest).drop pat.length)
    else c :: replaceOcc pat rep rest
termination_by l => l.length
decreasing_by
  · simp only [List.length_drop, List.length_cons]
    have : 1 ≤ pat.length := List.length_pos.mpr h.1
    omega
  · simp

/-- FindHTMLByText: an empty search text is a validation error; otherwise
the original names of the live HTML entries containing the text. -/
def FindHTMLByText (p : Epub) (text : String) : Except String (List String) :=
  if text = "" then .error "search text cannot be empty"
  else .ok ((p.entries.filter
    (fun e => !e.removed && isHTMLEntry e && strContains e.data text)).map
    (fun e => e.name))

/-- ReplaceAllHTML's per-entry pass: rewrites each live HTML entry that
contains the old text and accumulates the total occurrence count. -/
def replaceAllLoop (oldText newText : String) :
    List ZipEntry → List ZipEntry × Nat
  | [] => ([], 0)
  | e :: rest =>
    let r := replaceAllLoop oldText newText rest
    if !e.removed && isHTMLEntry e then
      let c := countOcc oldText.data e.data.data
      if c = 0 then (e :: r.1, r.2)
      else
        ({ e with data := ⟨replaceOcc oldText.data newText.data e.data.data⟩ }
          :: r.1, r.2 + c)
    else (e :: r.1, r.2)

/-- ReplaceAllHTML: an empty old text is a validation error; otherwise the
substring replacement across every live HTML entry with the total count. -/
def ReplaceAllHTML (p : Epub) (oldText newText : String) :
    Epub × Except String Nat :=
  if oldText = "" then (p, .error "old text cannot be empty")
  else
    let r := replaceAllLoop oldText newText p.entries
    ({ p with entries := r.1 }, .ok r.2)

/-- ApplyHTML's per-entry pass: applies the transform to each live HTML
entry; a transform failure stops the pass, keeping every entry already
rewritten and leaving the failing and later entries untouched. -/
def applyHTMLLoop (f : String → String → Except String String) :
    List ZipEntry → List ZipEntry × Nat × Option String
  | [] => ([], 0, none)
  | e :: rest =>
    if !e.removed && isHTMLEntry e then
      match f e.name e.data with
      | .error msg =>
        (e :: rest, 0,
          some ("failed to process HTML (" ++ e.name ++ "): " ++ msg))
      | .ok updated =>
        let r := applyHTMLLoop f rest
        if updated ≠ e.data then
          ({ e with data := updated } :: r.1, r.2.1 + 1, r.2.2)
        else (e :: r.1, r.2.1, r.2.2)
    else
      let r := applyHTMLLoop f rest
      (e :: r.1, r.2.1, r.2.2)

/-- ApplyHTML: a missing (nil) transform is a silent no-op success; with a
transform, every live HTML entry is rewritten through it and the number of
changed entries returned, any failure aborting with a zero count but with
the rewrites made so far retained. -/
def ApplyHTML (p : Epub)
    (fn : Option (String → String → Except String String)) :
    Epub × Except String Nat :=
  match fn with
  | none => (p, .ok 0)
  | some f =>
    let r := applyHTMLLoop f p.entries
    match r.2.2 with
    | some msg => ({ p with entries := r.1 }, .error msg)
    | none => ({ p with entries := r.1 }, .ok r.2.1)

/-! ## Saving -/

/-- One member of the output archive produced by `Save`. -/
structure SaveEntry where
  name : String
  method : Nat
  isDir : Bool
  data : String := ""
deriving DecidableEq

/-- writeDirEntry: a directory member is emitted with the `Store` method
and a name carrying a trailing slash. -/
def writeDirEntry (e : ZipEntry) : SaveEntry :=
  { name := if strHasSuffix e.name "/" then e.name else e.name ++ "/",
    method := 0, isDir := true }

/-- writeFileEntry: a file member keeps its header method except that the
zero method (`Store`, the header default) is replaced by `Deflate`. -/
def writeFileEntry (e : ZipEntry) : SaveEntry :=
  { name := e.name, method := if e.method = 0 then 8 else e.method,
    isDir := false, data := e.data }

/-- savePlan: the members `Save` writes, in entry-list order — tombstoned
entries are skipped, directories go through `writeDirEntry` and files
through `writeFileEntry`. -/
def savePlan (p : Epub) : List SaveEntry :=
  p.entries.filterMap fun e =>
    if e.removed then none
    else if e.isDir then some (writeDirEntry e)
    else some (writeFileEntry e)

/-- flushOPF: re-serializes the OPF document (through the supplied
serializer, standing for the XML encoder) into the descriptor's entry. -/
def flushOPF (p : Epub) (serialize : OpfPackage → Except String String) :
    Epub × Option String :=
  match p.opfDoc with
  | none => (p, none)
  | some doc =>
    match serialize doc with
    | .error e => (p, some e)
    | .ok data =>
      match lookupIndex p p.opfPath with
      | none => (p, some "content.opf not found in entries")
      | some _ => (setData p p.opfPath data, none)

/-- Save: an empty output path is a validation error; otherwise the OPF is
flushed and the non-removed entries are emitted in order. -/
def Save (p : Epub) (serialize : OpfPackage → Except String String)
    (outputPath : String) : Epub × Except String (List SaveEntry) :=
  if outputPath = "" then (p, .error "output path cannot be empty")
  else
    let f := flushOPF p serialize
    match f.2 with
    | some e => (f.1, .error e)
    | none => (f.1, .ok (savePlan f.1))

/-! ## Opening -/

/-- One member of the input archive as handed to `Open` by the zip reader. -/
structure Member where
  name : String
  isDir : Bool := false
  method : Nat := 8
  data : String := ""
deriving DecidableEq

/-- Tests whether a member is a package-descriptor file: a non-directory
whose name carries the descriptor extension. -/
def isOPFMember (m : Member) : Bool := !m.isDir && isOPFFile m.name

/-- The archive entry a member is read into: indexed under its normalized
name, with content bytes kept only for file members. -/
def memberEntry (m : Member) : ZipEntry :=
  { name := m.name, key := normalizeZipPath m.name, method := m.method,
    isDir := m.isDir, data := if m.isDir then "" else m.data }

/-- Processes one archive member inside `Open`'s loop: the member becomes
an entry under its normalized name, and a file member whose name has the
descriptor extension additionally (re)binds the OPF path, the OPF
directory, the parsed document and the id counter, each read overwriting
the previous one. -/
def openStep (parse : String → Except String OpfPackage) (p : Epub)
    (m : Member) : Except String Epub :=
  let normName := normalizeZipPath m.name
  if isOPFMember m then
    match parse m.data with
    | .error e =>
      .error ("failed to parse content.opf (" ++ m.name ++ "): " ++ e)
    | .ok doc =>
      let d := normalizeZipPath (pathDir normName)
      .ok { p with
        entries := p.entries ++ [memberEntry m],
        opfPath := normName,
        opfDir := if d = "." then "" else d,
        opfDoc := some doc,
        idCounter := doc.manifest.length }
  else .ok { p with entries := p.entries ++ [memberEntry m] }

/-- Open's member loop, reading members in archive order. -/
def openLoop (parse : String → Except String OpfPackage) (p : Epub) :
    List Member → Except String Epub
  | [] => .ok p
  | m :: rest =>
    match openStep parse p m with
    | .error e => .error e
    | .ok p' => openLoop parse p' rest

/-- Open: reads every member into the model and fails when no descriptor
was found; `parse` stands for the XML unmarshalling of the descriptor. -/
def Open (parse : String → Except String OpfPackage) (members : List Member) :
    Except String Epub :=
  match openLoop parse {} members with
  | .error e => .error e
  | .ok p => if p.opfDoc.isSome then .ok p else .error "content.opf not found"

/-! ## Chapter import path computations (source `AddChapterFromFile`,
`calculateRelativePath`)

`AddChapterFromFile` reads a source HTML file, resolves each image
reference against the source file's directory, imports the images under a
`static_images` directory, and rewrites the references relative to the
chapter's directory.  The path computations are modelled here; the
regular-expression scanning of the HTML text is outside the model. -/

/-- commonPrefixLen: the length of the longest common segment prefix
(source loop computing `commonLen`). -/
def commonPrefixLen : List String → List String → Nat
  | a :: as, b :: bs => if a = b then 1 + commonPrefixLen as bs else 0
  | _, _ => 0

/-- calculateRelativePath: a `../`-based path from `fromDir` to `toPath`,
with an empty or `"."` `fromDir` returning `toPath` unchanged, and a fully
common path collapsing to the base name. -/
def calculateRelativePath (fromDir toPath : String) : String :=
  if fromDir = "" ∨ fromDir = "." then toPath
  else
    let fromParts := (splitSegs (normalizeZipPath fromDir).data).map String.mk
    let toParts := (splitSegs (normalizeZipPath toPath).data).map String.mk
    let commonLen := commonPrefixLen fromParts toParts
    let relParts :=
      List.replicate (fromParts.length - commonLen) ".." ++
        toParts.drop commonLen
    if relParts = [] then pathBase toPath
    else ⟨joinSegs (relParts.map String.data)⟩

/-- The chapter's directory inside the archive (`path.Dir` of the chapter
path, normalized, with `"."` mapped to the empty string). -/
def chapterDirOf (epubChapterPath : String) : String :=
  let d := normalizeZipPath (pathDir epubChapterPath)
  if d = "." then "" else d

/-- The directory that imported images land in: `static_images` under the
OPF directory when one is set, else under the chapter's directory, else at
the root. -/
def imageBaseDirOf (opfDir epubChapterDir : String) : String :=
  normalizeZipPath
    (if opfDir ≠ "" then opfDir ++ "/static_images"
     else if epubChapterDir = "" then "static_images"
     else epubChapterDir ++ "/static_images")

/-- The source-filesystem path an image reference resolves to: absolute
references are kept, relative ones are joined onto the source HTML's
directory, and the result is cleaned. -/
def resolveImageSrc (htmlDir src : String) : String :=
  cleanPath (if isAbsPath src then src else pathJoin htmlDir src)

/-- The archive path an imported image is stored under: the image base
directory joined with the image's base name, normalized. -/
def epubImagePathOf (imageBaseDir imgPath : String) : String :=
  normalizeZipPath (imageBaseDir ++ "/" ++ pathBase imgPath)


/-! ## Spec-side predicates and concrete instances used by the theorems -/

/-- A minimal model whose descriptor sits at the archive root (empty OPF
directory). -/
def P1 : Epub :=
  { entries := [⟨"content.opf", "content.opf", 8, "x", false, false⟩],
    opfPath := "content.opf", opfDir := "", opfDoc := some {} }

/-- A model whose descriptor lives under `OEBPS`, together with a file
outside that directory. -/
def P2 : Epub :=
  { entries := [⟨"OEBPS/content.opf", "OEBPS/content.opf", 8, "x", false, false⟩,
      ⟨"other.txt", "other.txt", 8, "hi", false, false⟩],
    opfPath := "OEBPS/content.opf", opfDir := "OEBPS", opfDoc := some {} }

/-- A model holding a single live file entry whose original header method
is `Store` (0). -/
def StoreP : Epub :=
  { entries := [⟨"a.txt", "a.txt", 0, "d", false, false⟩] }

/-- Spine validity: every spine itemref names an existing manifest item. -/
def SpineValid (doc : OpfPackage) : Prop :=
  ∀ r ∈ doc.spine, ∃ it ∈ doc.manifest, it.id = r.idref

/-- The manifest the cascade description leaves behind: every item whose
normalized href differs from the normalized removal href. -/
def CascadeManifest (doc : OpfPackage) (href : String) : List ManifestItem :=
  doc.manifest.filter fun it =>
    !decide (normalizeZipPath it.href = normalizeZipPath href)

/-- The ids the cascade description collects: those of the items whose
normalized href matches the normalized removal href. -/
def CascadeIds (doc : OpfPackage) (href : String) : List String :=
  (doc.manifest.filter fun it =>
    decide (normalizeZipPath it.href = normalizeZipPath href)).map
    fun it => it.id

/-- The spine the cascade description leaves behind: every itemref whose
idref is not among the collected ids. -/
def CascadeSpine (doc : OpfPackage) (href : String) : List SpineItem :=
  doc.spine.filter fun r => !((CascadeIds doc href).contains r.idref)

/-- A concrete valid OPF document with two manifest items and two spine
itemrefs. -/
def DocV : OpfPackage :=
  { manifest := [⟨"id1", "a.html", "t", "", "", ""⟩,
      ⟨"id2", "b.html", "t", "", "", ""⟩],
    spine := [⟨"id1", "", ""⟩, ⟨"id2", "", ""⟩] }

/-- A concrete model carrying `DocV` with an empty OPF directory. -/
def PV : Epub := { opfDoc := some DocV }

/-- Two concrete members both carrying the descriptor extension. -/
def M1 : Member := ⟨"first.opf", false, 8, "A"⟩

/-- The second concrete descriptor member, nested in a directory. -/
def M2 : Member := ⟨"d/second.opf", false, 8, "B"⟩

/-- A parser model accepting every input as an empty document. -/
def parseAll : String → Except String OpfPackage := fun _ => .ok {}

/-- First chapter added to `P1`. -/
def Q1 : Epub := (AddChapter P1 "a/chapter.html" "x" (-1)).1

/-- Second chapter added after `Q1`. -/
def Q2 : Epub := (AddChapter Q1 "b/chapter.html" "x" (-1)).1

/-- Third chapter added after `Q2`. -/
def Q3 : Epub := (AddChapter Q2 "c/chapter.html" "x" (-1)).1

/-- A cleaned output segment that is not a `".."`: nonempty, not `"."`,
not `".."`, and free of separators. -/
def GoodSeg (s : List Char) : Prop :=
  s ≠ [] ∧ s ≠ ['.'] ∧ s ≠ ['.', '.'] ∧ '/' ∉ s

/-- Shape invariant of the cleaning stack (head is the most recent
segment): good segments on top of a run of `".."` segments, with no `".."`
at all in a rooted path. -/
def StackOK (rooted : Bool) (stack : List (List Char)) : Prop :=
  ∃ names dots, stack = names ++ dots ∧
    (∀ x ∈ dots, x = ['.', '.']) ∧
    (∀ x ∈ names, GoodSeg x) ∧
    (rooted = true → dots = [])

/-- Every stack segment is free of backslashes. -/
def StackNB (st : List (List Char)) : Prop := ∀ x ∈ st, '\\' ∉ x

theorem ensureDirsLoop_opf (l : List String) :
    ∀ (curr0 : String) (p : Epub),
    (ensureDirsLoop curr0 p l).opfDoc = p.opfDoc ∧
    (ensureDirsLoop curr0 p l).opfDir = p.opfDir ∧
    (ensureDirsLoop curr0 p l).opfPath = p.opfPath ∧
    (ensureDirsLoop curr0 p l).idCounter = p.idCounter := by
  induction l with
  | nil => exact fun _ _ => ⟨rfl, rfl, rfl, rfl⟩
  | cons part rest ih =>
    intro curr0 p
    simp only [ensureDirsLoop]
    split <;> split <;> exact ih _ _

theorem ensureDirectories_opf (p : Epub) (n : String) :
    (ensureDirectories p n).opfDoc = p.opfDoc ∧
    (ensureDirectories p n).opfDir = p.opfDir ∧
    (ensureDirectories p n).opfPath = p.opfPath ∧
    (ensureDirectories p n).idCounter = p.idCounter := by
  simp only [ensureDirectories]
  split
  · exact ⟨rfl, rfl, rfl, rfl⟩
  · exact ensureDirsLoop_opf _ _ _

/-! ## Concrete models used to instantiate the theorems -/

/-! ## C3: chapter import path rewriting -/

/-- C3: with package directory `OEBPS` and the chapter at
`OEBPS/text/ch1.xhtml`, a source image referenced as `../images/cover.png`
relative to the source HTML's directory is imported at
`OEBPS/static_images/cover.png`, and the reference is rewritten to
`../static_images/cover.png`, the relative path from the chapter's
directory to the image's archive path. -/
theorem chapter_import_path_rewriting :
    chapterDirOf "OEBPS/text/ch1.xhtml" = "OEBPS/text" ∧
    imageBaseDirOf "OEBPS" (chapterDirOf "OEBPS/text/ch1.xhtml") =
      "OEBPS/static_images" ∧
    epubImagePathOf
      (imageBaseDirOf "OEBPS" (chapterDirOf "OEBPS/text/ch1.xhtml"))
      (resolveImageSrc "/book/src" "../images/cover.png") =
      "OEBPS/static_images/cover.png" ∧
    calculateRelativePath (chapterDirOf "OEBPS/text/ch1.xhtml")
      (epubImagePathOf
        (imageBaseDirOf "OEBPS" (chapterDirOf "OEBPS/text/ch1.xhtml"))
        (resolveImageSrc "/book/src" "../images/cover.png")) =
      "../static_images/cover.png" := by
  decide

/-! ## C6: validation errors on empty or missing required arguments -/

/-- C6 counterexample: ApplyHTML with a missing (nil) transform succeeds
with a zero count instead of returning a validation error. -/
theorem applyHTML_nil_is_silent_noop :
    (ApplyHTML P1 none).2 = Except.ok 0 ∧ ApplyHTML P1 none = (P1, .ok 0) :=
  ⟨rfl, rfl⟩

/-- C6 amended: an empty chapter path, an empty search text and an empty
old text are validation errors, but a missing (nil) ApplyHTML transform is
a silent no-op success returning zero. -/
theorem validation_error_policy (p : Epub) (html newText : String)
    (si : Int) :
    AddChapter p "" html si = (p, some "chapter path cannot be empty") ∧
    FindHTMLByText p "" = .error "search text cannot be empty" ∧
    ReplaceAllHTML p "" newText = (p, .error "old text cannot be empty") ∧
    ApplyHTML p none = (p, .ok 0) :=
  ⟨rfl, rfl, rfl, rfl⟩

/-! ## C1: state on failure -/

theorem markRemoved_opfDoc (p : Epub) (k : String) :
    (markRemoved p k).opfDoc = p.opfDoc := rfl

theorem markRemoved_opfDir (p : Epub) (k : String) :
    (markRemoved p k).opfDir = p.opfDir := rfl

theorem removeFromOPF_entries (p : Epub) (href : String) :
    (removeFromOPF p href).entries = p.entries := by
  unfold removeFromOPF
  split <;> rfl

theorem addToOPF_ok (q : Epub) (norm : String) (si : Int) (d : OpfPackage)
    (hd : q.opfDoc = some d) (s : String)
    (hh : hrefForOPF q.opfDir norm = .ok s) :
    (addToOPF q norm si).2 = none := by
  unfold addToOPF
  rw [hd, hh]

/-- C1 counterexample: removing a file that lies outside the package
directory returns an error, yet the in-memory model has changed (the entry
was tombstoned before the failure). -/
theorem removeFileByName_error_mutates :
    (RemoveFileByName P2 "other.txt").2.isSome = true ∧
    (RemoveFileByName P2 "other.txt").1 ≠ P2 := by
  decide

/-- C1 amended: when the OPF document is loaded and the target paths can be
expressed relative to the package directory, a failing AddChapter or
removeEntry leaves the model unchanged (the remaining failures are the
validation and not-found checks, which precede any mutation); the
unqualified claim fails because an out-of-package-directory target makes
the href computation fail after the entry mutation has happened. -/
theorem failed_ops_leave_model_unchanged (p : Epub) (fp html n : String)
    (si : Int)
    (hdoc : ∃ d, p.opfDoc = some d)
    (h1 : ∃ s, hrefForOPF p.opfDir (normalizeZipPath fp) = .ok s)
    (h2 : ∃ s, hrefForOPF p.opfDir n = .ok s) :
    ((AddChapter p fp html si).2.isSome → (AddChapter p fp html si).1 = p) ∧
    ((removeEntry p n).2.isSome → (removeEntry p n).1 = p) := by
  obtain ⟨d, hd⟩ := hdoc
  obtain ⟨s1, hh1⟩ := h1
  obtain ⟨s2, hh2⟩ := h2
  constructor
  · intro herr
    by_cases hfp : fp = ""
    · simp [AddChapter, hfp]
    · by_cases hex : (lookupIndex p (normalizeZipPath fp)).isSome
      · simp [AddChapter, hfp, hex]
      · exfalso
        have hnone : (AddChapter p fp html si).2 = none := by
          unfold AddChapter
          simp only [if_neg hfp, hex, Bool.false_eq_true, if_false]
          refine addToOPF_ok _ _ _ d ?_ s1 ?_
          · exact (ensureDirectories_opf p (normalizeZipPath fp)).1.trans hd
          · exact congrArg
              (fun o => hrefForOPF o (normalizeZipPath fp))
              (ensureDirectories_opf p (normalizeZipPath fp)).2.1 |>.trans hh1
        rw [hnone] at herr
        simp at herr
  · intro herr
    cases hlk : lookupIndex p n with
    | none => unfold removeEntry; rw [hlk]
    | some e =>
      by_cases hrm : e.removed
      · exfalso
        have : removeEntry p n = (p, none) := by
          unfold removeEntry; rw [hlk]; simp [hrm]
        rw [this] at herr; simp at herr
      · exfalso
        have : (removeEntry p n).2 = none := by
          unfold removeEntry
          rw [hlk]
          simp only [hrm, Bool.false_eq_true, if_false]
          rw [markRemoved_opfDoc, hd, markRemoved_opfDir, hh2]
        rw [this] at herr; simp at herr

/-- C1 amended, instantiated: an AddChapter that fails its empty-path
validation leaves the concrete model `P1` unchanged. -/
theorem failed_ops_leave_model_unchanged_witness :
    (AddChapter P1 "" "x" (-1)).2.isSome = true ∧
    (AddChapter P1 "" "x" (-1)).1 = P1 :=
  ⟨by decide,
    (failed_ops_leave_model_unchanged P1 "" "x" "k" (-1)
      ⟨{}, rfl⟩ ⟨".", rfl⟩ ⟨"k", rfl⟩).1 (by decide)⟩

/-! ## C2: what Save writes -/

theorem strHasSuffix_append_slash (s : String) :
    strHasSuffix (s ++ "/") "/" = true := by
  simp [strHasSuffix, hasSuffixL, String.data_append, startsWithL]

theorem writeDirEntry_slash (e : ZipEntry) :
    strHasSuffix (writeDirEntry e).name "/" = true := by
  unfold writeDirEntry
  by_cases h : strHasSuffix e.name "/" = true
  · simpa [h] using h
  · simp only [Bool.not_eq_true] at h
    simp [h, strHasSuffix_append_slash]

/-- C2 counterexample: a file entry whose original header specified the
`Store` method (0) is written back with `Deflate` (8), not with `Store`. -/
theorem store_method_rewritten_to_deflate :
    StoreP.entries.map (fun e => e.method) = [0] ∧
    (savePlan StoreP).map (fun o => o.method) = [8] := by
  decide

/-- C2 amended: Save emits every non-removed entry in original insertion
order; each directory member is written with the `Store` method and a name
carrying a trailing path separator; each file member keeps its name and
data, keeps its original nonzero compression method verbatim, and has the
zero (`Store`) method replaced by `Deflate`. -/
theorem savePlan_member_spec (p : Epub) :
    List.Forall₂ (fun (e : ZipEntry) (o : SaveEntry) =>
      (e.isDir = true →
        o.method = 0 ∧ strHasSuffix o.name "/" = true ∧ o.isDir = true) ∧
      (e.isDir = false →
        o.name = e.name ∧ o.data = e.data ∧ o.isDir = false ∧
        (e.method = 0 → o.method = 8) ∧
        (e.method ≠ 0 → o.method = e.method)))
      (p.entries.filter fun e => !e.removed) (savePlan p) := by
  unfold savePlan
  induction p.entries with
  | nil => simp
  | cons e rest ih =>
    by_cases hr : e.removed
    · simpa [List.filter_cons, List.filterMap_cons, hr] using ih
    · simp only [Bool.not_eq_true] at hr
      by_cases hdir : e.isDir
      · have hcons :
            (e :: rest).filter (fun e => !e.removed) =
              e :: rest.filter (fun e => !e.removed) := by
          simp [List.filter_cons, hr]
        have hcons2 :
            (e :: rest).filterMap (fun e =>
              if e.removed then none
              else if e.isDir then some (writeDirEntry e)
              else some (writeFileEntry e)) =
              writeDirEntry e :: rest.filterMap (fun e =>
                if e.removed then none
                else if e.isDir then some (writeDirEntry e)
                else some (writeFileEntry e)) := by
          simp [List.filterMap_cons, hr, hdir]
        rw [hcons, hcons2]
        refine List.Forall₂.cons ?_ ih
        constructor
        · intro
          exact ⟨rfl, writeDirEntry_slash e, rfl⟩
        · intro hfalse
          rw [hdir] at hfalse
          cases hfalse
      · simp only [Bool.not_eq_true] at hdir
        have hcons :
            (e :: rest).filter (fun e => !e.removed) =
              e :: rest.filter (fun e => !e.removed) := by
          simp [List.filter_cons, hr]
        have hcons2 :
            (e :: rest).filterMap (fun e =>
              if e.removed then none
              else if e.isDir then some (writeDirEntry e)
              else some (writeFileEntry e)) =
              writeFileEntry e :: rest.filterMap (fun e =>
                if e.removed then none
                else if e.isDir then some (writeDirEntry e)
                else some (writeFileEntry e)) := by
          simp [List.filterMap_cons, hr, hdir]
        rw [hcons, hcons2]
        refine List.Forall₂.cons ?_ ih
        constructor
        · intro htrue
          rw [hdir] at htrue
          cases htrue
        · intro
          refine ⟨rfl, rfl, rfl, ?_, ?_⟩
          · intro hm; simp [writeFileEntry, hm]
          · intro hm; simp [writeFileEntry, hm]

/-! ## C7: removal semantics and idempotence -/

theorem lookupRev_setRemovedRev (l : List ZipEntry) (k : String) :
    lookupRev (setRemovedRev l k) k =
      (lookupRev l k).map (fun e => { e with removed := true }) := by
  induction l with
  | nil => rfl
  | cons e rest ih =>
    by_cases h : e.key = k
    · simp [setRemovedRev, lookupRev, h]
    · simp [setRemovedRev, lookupRev, h, ih]

theorem lookupIndex_markRemoved (p : Epub) (k : String) :
    lookupIndex (markRemoved p k) k =
      (lookupIndex p k).map (fun e => { e with removed := true }) := by
  simp [lookupIndex, markRemoved, lookupRev_setRemovedRev]

/-- C7: removeEntry errors on a missing path without touching the model;
on an already tombstoned entry it succeeds silently and changes nothing;
and a second removal of an existing path is always a silent no-op, making
repeated removal idempotent. -/
theorem removeEntry_semantics (p : Epub) (n : String) :
    (lookupIndex p n = none →
      removeEntry p n = (p, some ("file does not exist: " ++ n))) ∧
    (∀ e, lookupIndex p n = some e → e.removed = true →
      removeEntry p n = (p, none)) ∧
    (∀ e, lookupIndex p n = some e →
      removeEntry (removeEntry p n).1 n = ((removeEntry p n).1, none)) := by
  refine ⟨?_, ?_, ?_⟩
  · intro h
    unfold removeEntry
    rw [h]
  · intro e he hr
    unfold removeEntry
    rw [he]
    simp [hr]
  · intro e he
    by_cases hr : e.removed
    · have h1 : removeEntry p n = (p, none) := by
        unfold removeEntry; rw [he]; simp [hr]
      rw [h1]
      unfold removeEntry; rw [he]; simp [hr]
    · simp only [Bool.not_eq_true] at hr
      have hfst : (removeEntry p n).1.entries = (markRemoved p n).entries := by
        unfold removeEntry
        rw [he]
        simp only [hr, Bool.false_eq_true, if_false]
        split
        · rfl
        · split
          · rfl
          · exact removeFromOPF_entries _ _
      have hlk2 : lookupIndex (removeEntry p n).1 n =
          some { e with removed := true } := by
        show lookupRev (removeEntry p n).1.entries.reverse n = _
        rw [hfst]
        have := lookupIndex_markRemoved p n
        rw [he] at this
        exact this
      generalize hq : (removeEntry p n).1 = q at hlk2 ⊢
      unfold removeEntry
      rw [hlk2]
      simp

/-- C7 instantiated: removing a path absent from the concrete model `P1`
reports that the file does not exist. -/
theorem removeEntry_semantics_witness :
    removeEntry P1 "missing" = (P1, some "file does not exist: missing") :=
  (removeEntry_semantics P1 "missing").1 (by decide)

/-! ## C8: spine insertion position -/

theorem addToOPF_spec (p p' : Epub) (norm : String) (si : Int)
    (doc : OpfPackage) (hd : p.opfDoc = some doc)
    (h : addToOPF p norm si = (p', none)) :
    ∃ doc' href, p'.opfDoc = some doc' ∧
      hrefForOPF p.opfDir norm = .ok href ∧
      p'.idCounter = p.idCounter + 1 ∧
      doc'.manifest = doc.manifest ++
        [⟨(generateID (pathBase norm) p.idCounter).1, href,
          "application/xhtml+xml", "", "", ""⟩] ∧
      doc'.spine =
        (if si < 0 ∨ (doc.spine.length : Int) ≤ si then
          doc.spine ++ [⟨(generateID (pathBase norm) p.idCounter).1, "", ""⟩]
        else
          doc.spine.take si.toNat ++
            ⟨(generateID (pathBase norm) p.idCounter).1, "", ""⟩ ::
              doc.spine.drop si.toNat) := by
  unfold addToOPF at h
  rw [hd] at h
  cases h' : hrefForOPF p.opfDir norm with
  | error e => rw [h'] at h; cases h
  | ok href =>
    rw [h'] at h
    have hp' : _ = p' := congrArg Prod.fst h
    subst hp'
    exact ⟨_, href, rfl, rfl, rfl, rfl, rfl⟩

/-- C8: a successful chapter registration inserts exactly one new spine
itemref: a negative or out-of-bounds index appends it at the end, and an
in-bounds index places it at that position, with every itemref before the
index keeping its position and every itemref at or past it shifting up by
exactly one. -/
theorem spine_insertion_spec (p p' : Epub) (norm : String) (si : Int)
    (doc doc' : OpfPackage) (hd : p.opfDoc = some doc)
    (h : addToOPF p norm si = (p', none)) (hd' : p'.opfDoc = some doc') :
    ∃ ref : SpineItem,
      ref.idref = (generateID (pathBase norm) p.idCounter).1 ∧
      ((si < 0 ∨ (doc.spine.length : Int) ≤ si) →
        doc'.spine = doc.spine ++ [ref]) ∧
      (0 ≤ si → si < (doc.spine.length : Int) →
        doc'.spine.length = doc.spine.length + 1 ∧
        (∀ i : Nat, i < si.toNat → doc'.spine[i]? = doc.spine[i]?) ∧
        doc'.spine[si.toNat]? = some ref ∧
        (∀ i : Nat, si.toNat ≤ i → i < doc.spine.length →
          doc'.spine[i + 1]? = doc.spine[i]?)) := by
  obtain ⟨doc'', href, hdoc'', _, _, _, hspine⟩ :=
    addToOPF_spec p p' norm si doc hd h
  have hsame : doc' = doc'' := by
    rw [hdoc''] at hd'
    exact (Option.some.injEq _ _).mp hd'.symm
  subst hsame
  refine ⟨⟨(generateID (pathBase norm) p.idCounter).1, "", ""⟩, rfl, ?_, ?_⟩
  · intro hc
    rw [hspine, if_pos hc]
  · intro h0 hlt
    have hc : ¬(si < 0 ∨ (doc.spine.length : Int) ≤ si) := by omega
    rw [hspine, if_neg hc]
    have hkn : (si.toNat : Int) = si := Int.toNat_of_nonneg h0
    have hk : si.toNat < doc.spine.length := by omega
    have htl : (doc.spine.take si.toNat).length = si.toNat := by
      rw [List.length_take]
      omega
    refine ⟨?_, ?_, ?_, ?_⟩
    · simp only [List.length_append, List.length_cons, List.length_take,
        List.length_drop]
      omega
    · intro i hi
      rw [List.getElem?_append_left (by omega : i < (doc.spine.take si.toNat).length)]
      rw [List.getElem?_take]
      rw [if_pos hi]
    · rw [List.getElem?_append_right (by omega : (doc.spine.take si.toNat).length ≤ si.toNat)]
      rw [htl]
      simp
    · intro i hge hlen
      rw [List.getElem?_append_right (by omega : (doc.spine.take si.toNat).length ≤ i + 1)]
      rw [htl]
      have hidx : i + 1 - si.toNat = (i - si.toNat) + 1 := by omega
      rw [hidx]
      rw [List.getElem?_cons_succ]
      rw [List.getElem?_drop]
      congr 1
      omega

/-- C8 instantiated: appending a chapter to the concrete model `P1` with a
negative spine index places its itemref at the end of the spine. -/
theorem spine_insertion_spec_witness :
    ∃ ref : SpineItem,
      ref.idref = (generateID (pathBase "c.html") P1.idCounter).1 ∧
      (((-1 : Int) < 0 ∨ ((OpfPackage.spine {}).length : Int) ≤ -1) →
        (OpfPackage.spine
          ⟨"", [⟨"item-c-html-1", "c.html", "application/xhtml+xml", "", "", ""⟩],
            [⟨"item-c-html-1", "", ""⟩], none⟩) =
          (OpfPackage.spine {}) ++ [ref]) ∧
      ((0 : Int) ≤ -1 → (-1 : Int) < ((OpfPackage.spine {}).length : Int) →
        (OpfPackage.spine
          ⟨"", [⟨"item-c-html-1", "c.html", "application/xhtml+xml", "", "", ""⟩],
            [⟨"item-c-html-1", "", ""⟩], none⟩).length =
          (OpfPackage.spine {}).length + 1 ∧
        (∀ i : Nat, i < (-1 : Int).toNat →
          (OpfPackage.spine
            ⟨"", [⟨"item-c-html-1", "c.html", "application/xhtml+xml", "", "", ""⟩],
              [⟨"item-c-html-1", "", ""⟩], none⟩)[i]? =
            (OpfPackage.spine {})[i]?) ∧
        (OpfPackage.spine
          ⟨"", [⟨"item-c-html-1", "c.html", "application/xhtml+xml", "", "", ""⟩],
            [⟨"item-c-html-1", "", ""⟩], none⟩)[(-1 : Int).toNat]? = some ref ∧
        (∀ i : Nat, (-1 : Int).toNat ≤ i → i < (OpfPackage.spine {}).length →
          (OpfPackage.spine
            ⟨"", [⟨"item-c-html-1", "c.html", "application/xhtml+xml", "", "", ""⟩],
              [⟨"item-c-html-1", "", ""⟩], none⟩)[i + 1]? =
            (OpfPackage.spine {})[i]?)) :=
  spine_insertion_spec P1
    ((addToOPF P1 "c.html" (-1)).1) "c.html" (-1) {}
    ⟨"", [⟨"item-c-html-1", "c.html", "application/xhtml+xml", "", "", ""⟩],
      [⟨"item-c-html-1", "", ""⟩], none⟩
    rfl (by decide) (by decide)

/-! ## C4: manifest/spine cascade and spine validity -/

theorem manifest_fold_spec (href : String) (l : List ManifestItem) :
    ∀ a b, l.foldl
      (fun (acc : List String × List ManifestItem) item =>
        if normalizeZipPath item.href = normalizeZipPath href then
          (acc.1 ++ [item.id], acc.2)
        else (acc.1, acc.2 ++ [item])) (a, b) =
      (a ++ (l.filter fun it =>
          decide (normalizeZipPath it.href = normalizeZipPath href)).map
          (fun it => it.id),
       b ++ l.filter fun it =>
          !decide (normalizeZipPath it.href = normalizeZipPath href)) := by
  induction l with
  | nil => simp
  | cons it rest ih =>
    intro a b
    by_cases h : normalizeZipPath it.href = normalizeZipPath href
    · simp [List.foldl_cons, h, ih, List.filter_cons]
    · simp [List.foldl_cons, h, ih, List.filter_cons]

theorem spine_fold_spec (ids : List String) (l : List SpineItem) :
    ∀ acc, l.foldl
      (fun (sp : List SpineItem) item =>
        if ids.contains item.idref then sp else sp ++ [item]) acc =
      acc ++ l.filter fun r => !(ids.contains r.idref) := by
  induction l with
  | nil => simp
  | cons r rest ih =>
    intro acc
    by_cases h : ids.contains r.idref = true
    · rw [List.foldl_cons, if_pos h, ih, List.filter_cons]
      have h' : r.idref ∈ ids := by simpa using h
      simp [h']
    · rw [List.foldl_cons, if_neg h, ih, List.filter_cons]
      have h' : ¬(r.idref ∈ ids) := by simpa using h
      simp [h']

theorem removeFromOPF_spec (p : Epub) (doc : OpfPackage) (href : String)
    (hd : p.opfDoc = some doc) :
    ∃ doc', (removeFromOPF p href).opfDoc = some doc' ∧
      doc'.manifest = CascadeManifest doc href ∧
      doc'.spine = CascadeSpine doc href := by
  unfold removeFromOPF
  rw [hd]
  refine ⟨_, rfl, ?_, ?_⟩
  · show (doc.manifest.foldl _ ([], [])).2 = _
    rw [manifest_fold_spec]
    simp [CascadeManifest]
  · show doc.spine.foldl _ [] = _
    rw [spine_fold_spec]
    have hids : (doc.manifest.foldl
        (fun (acc : List String × List ManifestItem) item =>
          if normalizeZipPath item.href = normalizeZipPath href then
            (acc.1 ++ [item.id], acc.2)
          else (acc.1, acc.2 ++ [item])) ([], [])).1 = CascadeIds doc href := by
      rw [manifest_fold_spec]
      simp [CascadeIds]
    rw [hids]
    simp [CascadeSpine]

theorem addImageToManifest_spec (p q : Epub) (norm : String)
    (doc : OpfPackage) (hd : p.opfDoc = some doc)
    (h : addImageToManifest p norm = (q, none)) :
    ∃ doc' item, q.opfDoc = some doc' ∧
      doc'.manifest = doc.manifest ++ [item] ∧ doc'.spine = doc.spine := by
  unfold addImageToManifest at h
  rw [hd] at h
  cases h' : hrefForOPF p.opfDir norm with
  | error e => rw [h'] at h; cases h
  | ok href =>
    rw [h'] at h
    have hq : _ = q := congrArg Prod.fst h
    subst hq
    exact ⟨_, _, rfl, rfl, rfl⟩

/-- C4: the spine-validity invariant is enforced by the cascade. Removal
replaces the manifest by the items whose normalized href differs from the
removal href, collects the ids of the dropped items, and filters the spine
by that id set — preserving validity; chapter registration and image
registration also preserve validity. -/
theorem spine_references_valid (p : Epub) (doc : OpfPackage)
    (href norm imgNorm : String) (si : Int)
    (hd : p.opfDoc = some doc) (hval : SpineValid doc) :
    (∃ doc', (removeFromOPF p href).opfDoc = some doc' ∧
      doc'.manifest = CascadeManifest doc href ∧
      doc'.spine = CascadeSpine doc href ∧ SpineValid doc') ∧
    (∀ q doc'', addToOPF p norm si = (q, none) → q.opfDoc = some doc'' →
      SpineValid doc'') ∧
    (∀ q doc'', addImageToManifest p imgNorm = (q, none) →
      q.opfDoc = some doc'' → SpineValid doc'') := by
  refine ⟨?_, ?_, ?_⟩
  · obtain ⟨doc', h1, h2, h3⟩ := removeFromOPF_spec p doc href hd
    refine ⟨doc', h1, h2, h3, ?_⟩
    intro r hr
    rw [h3] at hr
    unfold CascadeSpine at hr
    have hr' : r ∈ doc.spine ∧ r.idref ∉ CascadeIds doc href := by
      have := List.mem_filter.mp hr
      refine ⟨this.1, ?_⟩
      have hb := this.2
      simp only [Bool.not_eq_true'] at hb
      intro hin
      have hb' : ¬(r.idref ∈ CascadeIds doc href) := by simpa using hb
      exact hb' hin
    obtain ⟨it, hit, hid⟩ := hval r hr'.1
    refine ⟨it, ?_, hid⟩
    rw [h2]
    unfold CascadeManifest
    rw [List.mem_filter]
    refine ⟨hit, ?_⟩
    simp only [Bool.not_eq_true', decide_eq_false_iff_not]
    intro hmatch
    refine hr'.2 ?_
    unfold CascadeIds
    rw [← hid]
    exact List.mem_map_of_mem _
      (List.mem_filter.mpr ⟨hit, by simpa using hmatch⟩)
  · intro q doc'' h hq
    obtain ⟨doc', hrefv, hdoc', _, _, hman, hspine⟩ :=
      addToOPF_spec p q norm si doc hd h
    have : doc'' = doc' := by
      rw [hdoc'] at hq
      exact (Option.some.injEq _ _).mp hq.symm
    subst this
    intro r hr
    rw [hspine] at hr
    have hmem : r ∈ doc.spine ∨
        r = ⟨(generateID (pathBase norm) p.idCounter).1, "", ""⟩ := by
      split at hr
      · rcases List.mem_append.mp hr with h' | h'
        · exact Or.inl h'
        · exact Or.inr (List.mem_singleton.mp h')
      · rcases List.mem_append.mp hr with h' | h'
        · exact Or.inl (List.mem_of_mem_take h')
        · rcases List.mem_cons.mp h' with h'' | h''
          · exact Or.inr h''
          · exact Or.inl (List.mem_of_mem_drop h'')
    rcases hmem with h' | h'
    · obtain ⟨it, hit, hid⟩ := hval r h'
      exact ⟨it, by rw [hman]; exact List.mem_append_left _ hit, hid⟩
    · refine ⟨⟨(generateID (pathBase norm) p.idCounter).1, hrefv,
        "application/xhtml+xml", "", "", ""⟩, ?_, ?_⟩
      · rw [hman]
        exact List.mem_append_right _ (List.mem_singleton.mpr rfl)
      · rw [h']
  · intro q doc'' h hq
    obtain ⟨doc', item, hdoc', hman, hspine⟩ :=
      addImageToManifest_spec p q imgNorm doc hd h
    have : doc'' = doc' := by
      rw [hdoc'] at hq
      exact (Option.some.injEq _ _).mp hq.symm
    subst this
    intro r hr
    rw [hspine] at hr
    obtain ⟨it, hit, hid⟩ := hval r hr
    exact ⟨it, by rw [hman]; exact List.mem_append_left _ hit, hid⟩

/-- C4 instantiated at the concrete model `PV`. -/
theorem spine_references_valid_witness :
    (∃ doc', (removeFromOPF PV "a.html").opfDoc = some doc' ∧
      doc'.manifest = CascadeManifest DocV "a.html" ∧
      doc'.spine = CascadeSpine DocV "a.html" ∧ SpineValid doc') ∧
    (∀ q doc'', addToOPF PV "c.html" (-1) = (q, none) →
      q.opfDoc = some doc'' → SpineValid doc'') ∧
    (∀ q doc'', addImageToManifest PV "i.png" = (q, none) →
      q.opfDoc = some doc'' → SpineValid doc'') :=
  spine_references_valid PV DocV "a.html" "c.html" "i.png" (-1) rfl
    (by unfold SpineValid; decide)

/-! ## C5: distinct generated ids from a monotonic counter -/

theorem decDigitsAux_fuel (f1 : Nat) : ∀ f2 n, n < f1 → n < f2 →
    decDigitsAux f1 n = decDigitsAux f2 n := by
  induction f1 with
  | zero => intro f2 n h1 _; exact absurd h1 (Nat.not_lt_zero n)
  | succ f1 ih =>
    intro f2 n h1 h2
    cases f2 with
    | zero => exact absurd h2 (Nat.not_lt_zero n)
    | succ f2 =>
      by_cases h : n < 10
      · simp [decDigitsAux, h]
      · have hdiv : n / 10 < n := Nat.div_lt_self (by omega) (by omega)
        simp only [decDigitsAux, h, if_false]
        rw [ih f2 (n / 10) (by omega) (by omega)]

theorem decDigitsAux_ne_nil (f n : Nat) (h : n < f) : decDigitsAux f n ≠ [] := by
  cases f with
  | zero => exact absurd h (Nat.not_lt_zero n)
  | succ f =>
    by_cases h10 : n < 10
    · simp [decDigitsAux, h10]
    · simp [decDigitsAux, h10]

theorem digitChar_bounded_inj :
    ∀ a, a < 10 → ∀ b, b < 10 → digitChar a = digitChar b → a = b := by
  decide

theorem decDigits_inj : ∀ m n, decDigits m = decDigits n → m = n := by
  intro m
  induction m using Nat.strong_induction_on with
  | _ m ih =>
    intro n h
    unfold decDigits at h
    by_cases hm : m < 10 <;> by_cases hn : n < 10
    · simp only [decDigitsAux, hm, hn, if_true] at h
      exact digitChar_bounded_inj m hm n hn (List.cons.inj h).1
    · exfalso
      have hdn : n / 10 < n := Nat.div_lt_self (by omega) (by omega)
      simp only [decDigitsAux, hm, hn, if_true, if_false] at h
      have hlen := congrArg List.length h
      simp only [List.length_cons, List.length_nil, List.length_append] at hlen
      have := decDigitsAux_ne_nil n (n / 10) (by omega)
      have : 1 ≤ (decDigitsAux n (n / 10)).length :=
        List.length_pos.mpr this
      omega
    · exfalso
      have hdm : m / 10 < m := Nat.div_lt_self (by omega) (by omega)
      simp only [decDigitsAux, hm, hn, if_true, if_false] at h
      have hlen := congrArg List.length h
      simp only [List.length_cons, List.length_nil, List.length_append] at hlen
      have := decDigitsAux_ne_nil m (m / 10) (by omega)
      have : 1 ≤ (decDigitsAux m (m / 10)).length :=
        List.length_pos.mpr this
      omega
    · have hdm : m / 10 < m := Nat.div_lt_self (by omega) (by omega)
      have hdn : n / 10 < n := Nat.div_lt_self (by omega) (by omega)
      simp only [decDigitsAux, hm, hn, if_false] at h
      have hrev := congrArg List.reverse h
      simp only [List.reverse_append, List.reverse_cons, List.reverse_nil,
        List.nil_append, List.cons_append, List.singleton_append] at hrev
      obtain ⟨hx, hrest⟩ := List.cons.inj hrev
      have hmod : m % 10 = n % 10 :=
        digitChar_bounded_inj _ (Nat.mod_lt _ (by omega)) _
          (Nat.mod_lt _ (by omega)) hx
      have hA : decDigitsAux m (m / 10) = decDigitsAux n (n / 10) := by
        have := congrArg List.reverse hrest
        simpa using this
      have e1 : decDigitsAux (m / 10 + 1) (m / 10) = decDigitsAux m (m / 10) :=
        decDigitsAux_fuel _ _ _ (by omega) hdm
      have e2 : decDigitsAux (n / 10 + 1) (n / 10) = decDigitsAux n (n / 10) :=
        decDigitsAux_fuel _ _ _ (by omega) hdn
      have hcan : decDigits (m / 10) = decDigits (n / 10) := by
        unfold decDigits
        rw [e1, e2, hA]
      have hdiv : m / 10 = n / 10 := ih (m / 10) hdm _ hcan
      omega

theorem generateID_counter_inj (b : String) (c1 c2 : Nat)
    (h : (generateID b c1).1 = (generateID b c2).1) : c1 = c2 := by
  unfold generateID at h
  rw [String.ext_iff] at h
  dsimp only at h
  have h1 := List.append_cancel_left h
  have := decDigits_inj _ _ h1
  omega

theorem addToOPF_success_doc (q p' : Epub) (norm : String) (si : Int)
    (h : addToOPF q norm si = (p', none)) : ∃ d, q.opfDoc = some d := by
  unfold addToOPF at h
  cases hq : q.opfDoc with
  | none =>
    rw [hq] at h
    exact absurd (congrArg Prod.snd h) (by simp)
  | some d => exact ⟨d, rfl⟩

theorem AddChapter_success (p p' : Epub) (fp html : String) (si : Int)
    (h : AddChapter p fp html si = (p', none)) :
    ∃ doc doc' item, p.opfDoc = some doc ∧ p'.opfDoc = some doc' ∧
      p'.idCounter = p.idCounter + 1 ∧
      doc'.manifest = doc.manifest ++ [item] ∧
      item.id = (generateID (pathBase (normalizeZipPath fp)) p.idCounter).1 := by
  unfold AddChapter at h
  by_cases hfp : fp = ""
  · rw [if_pos hfp] at h
    exact absurd (congrArg Prod.snd h) (by simp)
  · rw [if_neg hfp] at h
    dsimp only at h
    by_cases hex : (lookupIndex p (normalizeZipPath fp)).isSome = true
    · rw [if_pos hex] at h
      exact absurd (congrArg Prod.snd h) (by simp)
    · rw [if_neg hex] at h
      obtain ⟨doc2, hdoc2⟩ := addToOPF_success_doc _ _ _ _ h
      obtain ⟨doc', href, hdoc', _, hctr, hman, _⟩ :=
        addToOPF_spec _ p' (normalizeZipPath fp) si doc2 hdoc2 h
      have hcnt := (ensureDirectories_opf p (normalizeZipPath fp)).2.2.2
      dsimp only at hctr hman
      rw [hcnt] at hctr hman
      have hdp : p.opfDoc = some doc2 := by
        rw [← (ensureDirectories_opf p (normalizeZipPath fp)).1]
        exact hdoc2
      exact ⟨doc2, doc', _, hdp, hdoc', hctr, hman, rfl⟩

/-- C5: id generation increments the id counter on each generation, no
other bookkeeping (removal included) ever decrements it, and adding three
chapters whose base name is `chapter.html` (under any three directories)
appends three manifest items whose generated ids are pairwise distinct. -/
theorem generated_ids_distinct (p0 p1 p2 p3 : Epub)
    (a1 a2 a3 h1 h2 h3 : String) (s1 s2 s3 : Int)
    (e1 : AddChapter p0 a1 h1 s1 = (p1, none))
    (e2 : AddChapter p1 a2 h2 s2 = (p2, none))
    (e3 : AddChapter p2 a3 h3 s3 = (p3, none))
    (b1 : pathBase (normalizeZipPath a1) = "chapter.html")
    (b2 : pathBase (normalizeZipPath a2) = "chapter.html")
    (b3 : pathBase (normalizeZipPath a3) = "chapter.html") :
    (∀ b c, (generateID b c).2 = c + 1) ∧
    (∀ q href, (removeFromOPF q href).idCounter = q.idCounter) ∧
    p3.idCounter = p0.idCounter + 3 ∧
    ∃ doc0 doc3 i1 i2 i3,
      p0.opfDoc = some doc0 ∧ p3.opfDoc = some doc3 ∧
      doc3.manifest = doc0.manifest ++ [i1, i2, i3] ∧
      i1.id ≠ i2.id ∧ i1.id ≠ i3.id ∧ i2.id ≠ i3.id := by
  obtain ⟨doc0, doc1, i1, hp0, hp1, hc1, hm1, hi1⟩ :=
    AddChapter_success p0 p1 a1 h1 s1 e1
  obtain ⟨doc1', doc2, i2, hp1', hp2, hc2, hm2, hi2⟩ :=
    AddChapter_success p1 p2 a2 h2 s2 e2
  obtain ⟨doc2', doc3, i3, hp2', hp3, hc3, hm3, hi3⟩ :=
    AddChapter_success p2 p3 a3 h3 s3 e3
  have hd1 : doc1' = doc1 := by
    rw [hp1] at hp1'
    exact (Option.some.inj hp1').symm
  have hd2 : doc2' = doc2 := by
    rw [hp2] at hp2'
    exact (Option.some.inj hp2').symm
  subst hd1
  subst hd2
  rw [b1] at hi1
  rw [b2, hc1] at hi2
  rw [b3, hc2, hc1] at hi3
  refine ⟨fun _ _ => rfl, ?_, by omega, doc0, doc3, i1, i2, i3, hp0, hp3,
    ?_, ?_, ?_, ?_⟩
  · intro q href
    unfold removeFromOPF
    split <;> rfl
  · rw [hm3, hm2, hm1]
    simp
  · rw [hi1, hi2]
    intro hcontra
    have := generateID_counter_inj _ _ _ hcontra
    omega
  · rw [hi1, hi3]
    intro hcontra
    have := generateID_counter_inj _ _ _ hcontra
    omega
  · rw [hi2, hi3]
    intro hcontra
    have := generateID_counter_inj _ _ _ hcontra
    omega



/-! ## C9: multiple package descriptors, last one wins -/

theorem openLoop_spec (parse : String → Except String OpfPackage)
    (ms : List Member) : ∀ p : Epub,
    (∀ m ∈ ms, isOPFMember m = true → ∃ d, parse m.data = .ok d) →
    ∃ p', openLoop parse p ms = .ok p' ∧
      p'.entries = p.entries ++ ms.map memberEntry ∧
      (ms.filter isOPFMember = [] →
        p'.opfPath = p.opfPath ∧ p'.opfDoc = p.opfDoc) ∧
      (∀ lm, (ms.filter isOPFMember).getLast? = some lm →
        p'.opfPath = normalizeZipPath lm.name ∧
        ∃ d, parse lm.data = .ok d ∧ p'.opfDoc = some d) := by
  induction ms with
  | nil =>
    intro p _
    refine ⟨p, rfl, by simp, fun _ => ⟨rfl, rfl⟩, fun lm hl => ?_⟩
    simp at hl
  | cons m rest ih =>
    intro p hp
    by_cases hopf : isOPFMember m = true
    · obtain ⟨d, hd⟩ := hp m (by simp) hopf
      have hstep : openStep parse p m = .ok { p with
          entries := p.entries ++ [memberEntry m],
          opfPath := normalizeZipPath m.name,
          opfDir :=
            (if normalizeZipPath (pathDir (normalizeZipPath m.name)) = "."
             then ""
             else normalizeZipPath (pathDir (normalizeZipPath m.name))),
          opfDoc := some d,
          idCounter := d.manifest.length } := by
        unfold openStep
        rw [if_pos hopf, hd]
      obtain ⟨p', hloop, hent, hempty, hlast⟩ :=
        ih _ (fun m' hm' => hp m' (by simp [hm']))
      refine ⟨p', ?_, ?_, ?_, ?_⟩
      · unfold openLoop
        rw [hstep]
        exact hloop
      · rw [hent]
        simp
      · intro hfl
        rw [List.filter_cons, if_pos hopf] at hfl
        cases hfl
      · intro lm hlm
        rw [List.filter_cons, if_pos hopf] at hlm
        cases hfl : rest.filter isOPFMember with
        | nil =>
          rw [hfl, List.getLast?_singleton] at hlm
          obtain ⟨h1, h2⟩ := hempty hfl
          cases hlm
          exact ⟨h1, d, hd, h2⟩
        | cons a l =>
          rw [hfl, List.getLast?_cons_cons] at hlm
          rw [← hfl] at hlm
          exact hlast lm hlm
    · have hstep : openStep parse p m =
          .ok { p with entries := p.entries ++ [memberEntry m] } := by
        unfold openStep
        rw [if_neg hopf]
      obtain ⟨p', hloop, hent, hempty, hlast⟩ :=
        ih _ (fun m' hm' => hp m' (by simp [hm']))
      refine ⟨p', ?_, ?_, ?_, ?_⟩
      · unfold openLoop
        rw [hstep]
        exact hloop
      · rw [hent]
        simp
      · intro hfl
        rw [List.filter_cons, if_neg hopf] at hfl
        exact hempty hfl
      · intro lm hlm
        rw [List.filter_cons, if_neg hopf] at hlm
        exact hlast lm hlm

/-- C9: when the archive holds two or more descriptor-typed members, all of
which parse, Open succeeds rather than failing; the last descriptor member
in read order supplies the descriptor path and document, and every file
member — the earlier descriptors included — is kept as an ordinary live
file entry. -/
theorem open_last_descriptor_wins (parse : String → Except String OpfPackage)
    (members : List Member)
    (hp : ∀ m ∈ members, isOPFMember m = true → ∃ d, parse m.data = .ok d)
    (hc : 2 ≤ (members.filter isOPFMember).length) :
    ∃ p, Open parse members = .ok p ∧
      (∀ lm, (members.filter isOPFMember).getLast? = some lm →
        p.opfPath = normalizeZipPath lm.name ∧
        ∃ d, parse lm.data = .ok d ∧ p.opfDoc = some d) ∧
      p.entries = members.map memberEntry ∧
      (∀ m ∈ members, (memberEntry m).removed = false ∧
        memberEntry m ∈ p.entries) := by
  obtain ⟨p', hloop, hent, _, hlast⟩ := openLoop_spec parse members {} hp
  have hne : members.filter isOPFMember ≠ [] := by
    intro h
    rw [h] at hc
    simp at hc
  obtain ⟨lm, hlm⟩ :=
    Option.isSome_iff_exists.mp (List.getLast?_isSome.mpr hne)
  obtain ⟨_, d, _, hdoc⟩ := hlast lm hlm
  have hopen : Open parse members = .ok p' := by
    unfold Open
    rw [hloop]
    dsimp only
    rw [if_pos (show p'.opfDoc.isSome = true by rw [hdoc]; rfl)]
  have hent' : p'.entries = members.map memberEntry := by
    rw [hent]
    rfl
  refine ⟨p', hopen, hlast, hent', fun m hm => ⟨rfl, ?_⟩⟩
  rw [hent']
  exact List.mem_map_of_mem _ hm

/-- C9 instantiated: opening `[M1, M2]` succeeds and binds the descriptor
path to the second member. -/
theorem open_last_descriptor_wins_witness :
    ∃ p, Open parseAll [M1, M2] = .ok p ∧
      (∀ lm, ([M1, M2].filter isOPFMember).getLast? = some lm →
        p.opfPath = normalizeZipPath lm.name ∧
        ∃ d, parseAll lm.data = .ok d ∧ p.opfDoc = some d) ∧
      p.entries = [M1, M2].map memberEntry ∧
      (∀ m ∈ [M1, M2], (memberEntry m).removed = false ∧
        memberEntry m ∈ p.entries) :=
  open_last_descriptor_wins parseAll [M1, M2]
    (fun m _ _ => ⟨{}, rfl⟩) (by decide)


/-- C5 instantiated: three `chapter.html` chapters under directories `a`,
`b`, `c` added to the concrete model `P1` receive pairwise distinct ids. -/
theorem generated_ids_distinct_witness :
    (∀ b c, (generateID b c).2 = c + 1) ∧
    (∀ q href, (removeFromOPF q href).idCounter = q.idCounter) ∧
    Q3.idCounter = P1.idCounter + 3 ∧
    ∃ doc0 doc3 i1 i2 i3,
      P1.opfDoc = some doc0 ∧ Q3.opfDoc = some doc3 ∧
      doc3.manifest = doc0.manifest ++ [i1, i2, i3] ∧
      i1.id ≠ i2.id ∧ i1.id ≠ i3.id ∧ i2.id ≠ i3.id :=
  generated_ids_distinct P1 Q1 Q2 Q3 "a/chapter.html" "b/chapter.html"
    "c/chapter.html" "x" "x" "x" (-1) (-1) (-1) (by decide) (by decide)
    (by decide) (by decide) (by decide) (by decide)


/-! ## C10: idempotence of path normalization -/

theorem splitSegs_ne_nil (l : List Char) : splitSegs l ≠ [] := by
  cases l with
  | nil => simp [splitSegs]
  | cons c rest =>
    unfold splitSegs
    dsimp only
    split <;> simp

theorem splitSegs_cons_slash (t : List Char) :
    splitSegs ('/' :: t) = [] :: splitSegs t := by
  conv_lhs => unfold splitSegs
  dsimp only
  rw [if_pos rfl]

theorem splitSegs_cons_other (c : Char) (t : List Char) (hc : ¬(c = '/')) :
    splitSegs (c :: t) =
      (c :: (splitSegs t).headD []) :: (splitSegs t).tail := by
  conv_lhs => unfold splitSegs
  dsimp only
  rw [if_neg hc]

theorem splitSegs_no_slash (s : List Char) (hs : '/' ∉ s) :
    splitSegs s = [s] := by
  induction s with
  | nil => rfl
  | cons c rest ih =>
    have hc : ¬(c = '/') := fun h => hs (h ▸ List.mem_cons_self c rest)
    have hrest : '/' ∉ rest := fun h => hs (List.mem_cons_of_mem c h)
    rw [splitSegs_cons_other c rest hc, ih hrest]
    rfl

theorem splitSegs_append_slash (s t : List Char) (hs : '/' ∉ s) :
    splitSegs (s ++ '/' :: t) = s :: splitSegs t := by
  induction s with
  | nil => exact splitSegs_cons_slash t
  | cons c s' ih =>
    have hc : ¬(c = '/') := fun h => hs (h ▸ List.mem_cons_self c s')
    have hs' : '/' ∉ s' := fun h => hs (List.mem_cons_of_mem c h)
    rw [List.cons_append, splitSegs_cons_other c (s' ++ '/' :: t) hc, ih hs']
    rfl

theorem splitSegs_joinSegs (L : List (List Char)) (hne : L ≠ [])
    (hns : ∀ s ∈ L, '/' ∉ s) : splitSegs (joinSegs L) = L := by
  induction L with
  | nil => exact absurd rfl hne
  | cons s rest ih =>
    cases rest with
    | nil =>
      show splitSegs (joinSegs [s]) = [s]
      unfold joinSegs
      exact splitSegs_no_slash s (hns s (by simp))
    | cons y ys =>
      show splitSegs (s ++ '/' :: joinSegs (y :: ys)) = s :: y :: ys
      rw [splitSegs_append_slash s _ (hns s (by simp))]
      rw [ih (by simp) (fun x hx => hns x (List.mem_cons_of_mem s hx))]

theorem splitSegs_chars (l : List Char) :
    ∀ s ∈ splitSegs l, ∀ c ∈ s, c ∈ l := by
  induction l with
  | nil =>
    intro s hs c hc
    simp [splitSegs] at hs
    subst hs
    cases hc
  | cons a rest ih =>
    intro s hs c hc
    by_cases ha : a = '/'
    · subst ha
      rw [splitSegs_cons_slash] at hs
      rcases List.mem_cons.mp hs with h | h
      · subst h; cases hc
      · exact List.mem_cons_of_mem _ (ih s h c hc)
    · rw [splitSegs_cons_other a rest ha] at hs
      cases hX : splitSegs rest with
      | nil => exact absurd hX (splitSegs_ne_nil rest)
      | cons x xs =>
        rw [hX] at hs
        dsimp only [List.headD, List.tail] at hs
        rcases List.mem_cons.mp hs with h | h
        · subst h
          rcases List.mem_cons.mp hc with h' | h'
          · rw [h']; exact List.mem_cons_self a rest
          · exact List.mem_cons_of_mem _
              (ih x (hX ▸ List.mem_cons_self x xs) c h')
        · exact List.mem_cons_of_mem _
            (ih s (hX ▸ List.mem_cons_of_mem x h) c hc)

theorem splitSegs_elem_no_slash (l : List Char) :
    ∀ s ∈ splitSegs l, '/' ∉ s := by
  induction l with
  | nil =>
    intro s hs
    simp [splitSegs] at hs
    subst hs
    simp
  | cons a rest ih =>
    intro s hs
    by_cases ha : a = '/'
    · subst ha
      rw [splitSegs_cons_slash] at hs
      rcases List.mem_cons.mp hs with h | h
      · subst h; simp
      · exact ih s h
    · rw [splitSegs_cons_other a rest ha] at hs
      cases hX : splitSegs rest with
      | nil => exact absurd hX (splitSegs_ne_nil rest)
      | cons x xs =>
        rw [hX] at hs
        dsimp only [List.headD, List.tail] at hs
        rcases List.mem_cons.mp hs with h | h
        · subst h
          intro hmem
          rcases List.mem_cons.mp hmem with h' | h'
          · exact ha h'.symm
          · exact ih x (hX ▸ List.mem_cons_self x xs) h'
        · exact ih s (hX ▸ List.mem_cons_of_mem x h)



theorem processSeg_ok (rooted : Bool) (st : List (List Char))
    (s : List Char) (hst : StackOK rooted st) (hs : '/' ∉ s) :
    StackOK rooted (processSeg rooted st s) := by
  obtain ⟨names, dots, rfl, hdots, hnames, hroot⟩ := hst
  by_cases h1 : s = [] ∨ s = ['.']
  · unfold processSeg
    rw [if_pos h1]
    exact ⟨names, dots, rfl, hdots, hnames, hroot⟩
  · by_cases h2 : s = ['.', '.']
    · cases names with
      | nil =>
        cases dots with
        | nil =>
          unfold processSeg
          rw [if_neg h1, if_pos h2]
          by_cases hr : rooted = true
          · rw [if_pos hr]
            exact ⟨[], [], rfl, by simp, by simp, fun _ => rfl⟩
          · rw [if_neg hr]
            exact ⟨[], [['.', '.']], rfl, by simp, by simp,
              fun h => absurd h hr⟩
        | cons t dots' =>
          have ht : t = ['.', '.'] := hdots t (by simp)
          unfold processSeg
          rw [if_neg h1, if_pos h2]
          simp only [List.nil_append]
          rw [if_pos ht]
          refine ⟨[], s :: t :: dots', rfl, ?_, by simp, ?_⟩
          · intro x hx
            rcases List.mem_cons.mp hx with h | h
            · rw [h, h2]
            · rcases List.mem_cons.mp h with h' | h'
              · rw [h', ht]
              · exact hdots x (List.mem_cons_of_mem t h')
          · intro hr
            exact absurd (hroot hr) (by simp)
      | cons x names' =>
        have hx : GoodSeg x := hnames x (by simp)
        unfold processSeg
        rw [if_neg h1, if_pos h2]
        simp only [List.cons_append]
        rw [if_neg hx.2.2.1]
        exact ⟨names', dots, rfl, hdots,
          fun y hy => hnames y (List.mem_cons_of_mem x hy), hroot⟩
    · unfold processSeg
      rw [if_neg h1, if_neg h2]
      refine ⟨s :: names, dots, rfl, hdots, ?_, hroot⟩
      intro x hx
      rcases List.mem_cons.mp hx with h | h
      · rw [h]
        push_neg at h1
        exact ⟨h1.1, h1.2, h2, hs⟩
      · exact hnames x h

theorem foldl_processSeg_ok (rooted : Bool) (segs : List (List Char)) :
    ∀ st, StackOK rooted st → (∀ s ∈ segs, '/' ∉ s) →
    StackOK rooted (segs.foldl (processSeg rooted) st) := by
  induction segs with
  | nil => intro st hst _; exact hst
  | cons s rest ih =>
    intro st hst hns
    rw [List.foldl_cons]
    exact ih _ (processSeg_ok rooted st s hst (hns s (by simp)))
      (fun x hx => hns x (List.mem_cons_of_mem s hx))

theorem processSeg_nil (rooted : Bool) (st : List (List Char)) :
    processSeg rooted st [] = st := by
  unfold processSeg
  rw [if_pos (Or.inl rfl)]

theorem foldl_names_push (rooted : Bool) (names : List (List Char)) :
    ∀ st, (∀ x ∈ names, GoodSeg x) →
    names.foldl (processSeg rooted) st = names.reverse ++ st := by
  induction names with
  | nil => intro st _; simp
  | cons x names' ih =>
    intro st hg
    have hx : GoodSeg x := hg x (by simp)
    rw [List.foldl_cons]
    have hpush : processSeg rooted st x = x :: st := by
      unfold processSeg
      rw [if_neg (by push_neg; exact ⟨hx.1, hx.2.1⟩), if_neg hx.2.2.1]
    rw [hpush, ih (x :: st) (fun y hy => hg y (List.mem_cons_of_mem x hy))]
    simp

theorem foldl_dots_push (dots : List (List Char)) :
    ∀ st, (∀ x ∈ dots, x = ['.', '.']) → (∀ x ∈ st, x = ['.', '.']) →
    dots.foldl (processSeg false) st = dots.reverse ++ st := by
  induction dots with
  | nil => intro st _ _; simp
  | cons x dots' ih =>
    intro st hd hst
    have hx : x = ['.', '.'] := hd x (by simp)
    rw [List.foldl_cons]
    have hpush : processSeg false st x = x :: st := by
      unfold processSeg
      rw [if_neg (by rw [hx]; simp), if_pos hx]
      cases hs : st with
      | nil => dsimp only; rw [if_neg (by simp), hx]
      | cons t rest =>
        have ht : t = ['.', '.'] := hst t (hs ▸ List.mem_cons_self t rest)
        dsimp only
        rw [if_pos ht]
    rw [hpush, ih (x :: st) (fun y hy => hd y (List.mem_cons_of_mem x hy))
      (fun y hy => by
        rcases List.mem_cons.mp hy with h | h
        · rw [h, hx]
        · exact hst y h)]
    simp



theorem joinSegs_no_backslash (L : List (List Char))
    (h : ∀ s ∈ L, '\\' ∉ s) : '\\' ∉ joinSegs L := by
  induction L with
  | nil => simp [joinSegs]
  | cons s rest ih =>
    cases rest with
    | nil => simpa [joinSegs] using h s (by simp)
    | cons y ys =>
      show '\\' ∉ s ++ '/' :: joinSegs (y :: ys)
      intro hmem
      rcases List.mem_append.mp hmem with hm | hm
      · exact h s (by simp) hm
      · rcases List.mem_cons.mp hm with hm' | hm'
        · exact absurd hm' (by decide)
        · exact ih (fun x hx => h x (List.mem_cons_of_mem s hx)) hm'

theorem processSeg_nb (rooted : Bool) (st : List (List Char)) (s : List Char)
    (hst : StackNB st) (hs : '\\' ∉ s) : StackNB (processSeg rooted st s) := by
  unfold processSeg
  by_cases h1 : s = [] ∨ s = ['.']
  · rw [if_pos h1]; exact hst
  · rw [if_neg h1]
    by_cases h2 : s = ['.', '.']
    · rw [if_pos h2]
      cases st with
      | nil =>
        by_cases hr : rooted = true
        · rw [if_pos hr]; intro x hx; cases hx
        · rw [if_neg hr]
          intro x hx
          rcases List.mem_cons.mp hx with h | h
          · rw [h]; decide
          · cases h
      | cons t rest =>
        dsimp only
        by_cases ht : t = ['.', '.']
        · rw [if_pos ht]
          intro x hx
          rcases List.mem_cons.mp hx with h | h
          · rw [h]; exact hs
          · exact hst x h
        · rw [if_neg ht]
          exact fun x hx => hst x (List.mem_cons_of_mem t hx)
    · rw [if_neg h2]
      intro x hx
      rcases List.mem_cons.mp hx with h | h
      · rw [h]; exact hs
      · exact hst x h

theorem foldl_processSeg_nb (rooted : Bool) (segs : List (List Char)) :
    ∀ st, StackNB st → (∀ s ∈ segs, '\\' ∉ s) →
    StackNB (segs.foldl (processSeg rooted) st) := by
  induction segs with
  | nil => intro st hst _; exact hst
  | cons s rest ih =>
    intro st hst hns
    rw [List.foldl_cons]
    exact ih _ (processSeg_nb rooted st s hst (hns s (by simp)))
      (fun x hx => hns x (List.mem_cons_of_mem s hx))

/-- The branch of `goClean` taken on a nonempty input, spelled out. -/
theorem goClean_spec (l : List Char) (hl : l ≠ []) :
    goClean l =
      (if ((if decide (l.head? = some '/') = true then ['/'] else []) ++
          joinSegs ((splitSegs l).foldl
            (processSeg (decide (l.head? = some '/'))) []).reverse) = []
       then ['.']
       else (if decide (l.head? = some '/') = true then ['/'] else []) ++
          joinSegs ((splitSegs l).foldl
            (processSeg (decide (l.head? = some '/'))) []).reverse) := by
  unfold goClean
  rw [if_neg hl]

theorem goClean_no_backslash (l : List Char) (hl : '\\' ∉ l) :
    '\\' ∉ goClean l := by
  by_cases h : l = []
  · subst h; decide
  · rw [goClean_spec l h]
    have hstack : StackNB ((splitSegs l).foldl
        (processSeg (decide (l.head? = some '/'))) []) :=
      foldl_processSeg_nb _ _ [] (fun x hx => by cases hx)
        (fun s hs hc => hl (splitSegs_chars l s hs '\\' hc))
    have hjoin : '\\' ∉ joinSegs ((splitSegs l).foldl
        (processSeg (decide (l.head? = some '/'))) []).reverse :=
      joinSegs_no_backslash _ (fun x hx => hstack x (List.mem_reverse.mp hx))
    have hpreNB : '\\' ∉
        (if decide (l.head? = some '/') = true then (['/'] : List Char)
         else []) := by
      by_cases hdec : decide (l.head? = some '/') = true
      · rw [if_pos hdec]; decide
      · rw [if_neg hdec]; simp
    by_cases hout : ((if decide (l.head? = some '/') = true
        then (['/'] : List Char) else []) ++
        joinSegs ((splitSegs l).foldl
          (processSeg (decide (l.head? = some '/'))) []).reverse) = []
    · rw [if_pos hout]; decide
    · rw [if_neg hout]
      intro hmem
      rcases List.mem_append.mp hmem with hm | hm
      · exact hpreNB hm
      · exact hjoin hm

theorem replBackslash_no_backslash (l : List Char) :
    '\\' ∉ replBackslash l := by
  intro hmem
  unfold replBackslash at hmem
  obtain ⟨c, _, hc⟩ := List.mem_map.mp hmem
  by_cases h : c = '\\' <;> simp [h] at hc

theorem replBackslash_fixed (l : List Char) (h : '\\' ∉ l) :
    replBackslash l = l := by
  unfold replBackslash
  induction l with
  | nil => rfl
  | cons c rest ih =>
    have hc : ¬(c = '\\') := fun hh => h (hh ▸ List.mem_cons_self c rest)
    rw [List.map_cons, if_neg hc, ih (fun hm => h (List.mem_cons_of_mem c hm))]

theorem joinSegs_ne_nil (s : List Char) (L : List (List Char)) (hs : s ≠ []) :
    joinSegs (s :: L) ≠ [] := by
  cases L with
  | nil => exact hs
  | cons y ys =>
    cases s with
    | nil => exact absurd rfl hs
    | cons c cs => simp [joinSegs]

theorem joinSegs_head? (s : List Char) (L : List (List Char)) (hs : s ≠ []) :
    (joinSegs (s :: L)).head? = s.head? := by
  cases L with
  | nil => rfl
  | cons y ys =>
    show (s ++ '/' :: joinSegs (y :: ys)).head? = s.head?
    cases s with
    | nil => exact absurd rfl hs
    | cons c cs => rfl

theorem head_not_slash (s0 : List Char) (L : List (List Char))
    (h0 : s0 ≠ []) (hns : '/' ∉ s0) :
    decide ((joinSegs (s0 :: L)).head? = some '/') = false := by
  rw [joinSegs_head? s0 L h0]
  cases s0 with
  | nil => exact absurd rfl h0
  | cons c cs =>
    have hc : ¬(c = '/') := fun h => hns (by rw [h]; exact List.mem_cons_self _ _)
    simp [hc]

/-- A rooted cleaned path re-cleans to itself. -/
theorem goClean_rooted_fixed (L : List (List Char))
    (hL : ∀ x ∈ L, GoodSeg x) (hne : L ≠ []) :
    goClean ('/' :: joinSegs L) = '/' :: joinSegs L := by
  have hns : ∀ x ∈ L, '/' ∉ x := fun x hx => (hL x hx).2.2.2
  have hb : decide ((('/' :: joinSegs L) : List Char).head? = some '/') = true := by
    simp
  rw [goClean_spec _ (by simp), hb]
  rw [splitSegs_cons_slash, splitSegs_joinSegs L hne hns]
  rw [List.foldl_cons, processSeg_nil, foldl_names_push true L [] hL]
  rw [List.append_nil, List.reverse_reverse]
  rw [if_pos rfl]
  rw [List.singleton_append]
  rw [if_neg (List.cons_ne_nil _ _)]

/-- An unrooted cleaned path (a run of `".."` segments followed by good
segments) re-cleans to itself. -/
theorem goClean_unrooted_fixed (dots names : List (List Char))
    (hd : ∀ x ∈ dots, x = ['.', '.']) (hn : ∀ x ∈ names, GoodSeg x)
    (hne : dots ++ names ≠ []) :
    goClean (joinSegs (dots ++ names)) = joinSegs (dots ++ names) := by
  have hnonil : ∀ x ∈ dots ++ names, x ≠ [] := by
    intro x hx
    rcases List.mem_append.mp hx with h | h
    · rw [hd x h]; simp
    · exact (hn x h).1
  have hns : ∀ x ∈ dots ++ names, '/' ∉ x := by
    intro x hx
    rcases List.mem_append.mp hx with h | h
    · rw [hd x h]; decide
    · exact (hn x h).2.2.2
  obtain ⟨s0, L0, hL⟩ : ∃ s0 L0, dots ++ names = s0 :: L0 := by
    cases h : dots ++ names with
    | nil => exact absurd h hne
    | cons a b => exact ⟨a, b, rfl⟩
  have hs0 : s0 ≠ [] := hnonil s0 (by rw [hL]; simp)
  have hs0ns : '/' ∉ s0 := hns s0 (by rw [hL]; simp)
  have hlne : joinSegs (dots ++ names) ≠ [] := by
    rw [hL]; exact joinSegs_ne_nil s0 L0 hs0
  have hb : decide ((joinSegs (dots ++ names)).head? = some '/') = false := by
    rw [hL]; exact head_not_slash s0 L0 hs0 hs0ns
  rw [goClean_spec _ hlne, hb]
  rw [splitSegs_joinSegs _ hne hns]
  rw [List.foldl_append]
  rw [foldl_dots_push dots [] hd (fun x hx => by cases hx)]
  rw [List.append_nil]
  rw [foldl_names_push false names dots.reverse hn]
  rw [List.reverse_append, List.reverse_reverse, List.reverse_reverse]
  rw [show (if (false = true) then (['/'] : List Char) else []) = [] from rfl]
  rw [List.nil_append]
  rw [if_neg hlne]

theorem goClean_idem (l : List Char) : goClean (goClean l) = goClean l := by
  by_cases hl : l = []
  · subst hl; decide
  · obtain ⟨names, dots, hfst, hdots, hnames, hroot⟩ :=
      foldl_processSeg_ok (decide (l.head? = some '/')) (splitSegs l) []
        ⟨[], [], rfl, by simp, by simp, fun _ => rfl⟩
        (splitSegs_elem_no_slash l)
    rw [goClean_spec l hl]
    cases hb : decide (l.head? = some '/') with
    | true =>
      rw [hb] at hfst
      have hdnil : dots = [] := hroot hb
      rw [hdnil, List.append_nil] at hfst
      rw [hfst]
      rw [if_pos rfl]
      rw [List.singleton_append]
      rw [if_neg (List.cons_ne_nil _ _)]
      cases hnr : names.reverse with
      | nil => decide
      | cons r0 rrest =>
        exact goClean_rooted_fixed (r0 :: rrest)
          (fun x hx => hnames x (List.mem_reverse.mp (by rw [hnr]; exact hx)))
          (by simp)
    | false =>
      rw [hb] at hfst
      rw [hfst]
      rw [show (if (false = true) then (['/'] : List Char) else []) = []
        from rfl]
      rw [List.nil_append, List.reverse_append]
      cases hcase : dots.reverse ++ names.reverse with
      | nil =>
        rw [if_pos (show joinSegs [] = [] from rfl)]
        decide
      | cons s0 L0 =>
        have hs0mem : s0 ∈ dots.reverse ++ names.reverse := by
          rw [hcase]; simp
        have hs0 : s0 ≠ [] := by
          rcases List.mem_append.mp hs0mem with h | h
          · rw [hdots s0 (List.mem_reverse.mp h)]; simp
          · exact (hnames s0 (List.mem_reverse.mp h)).1
        rw [if_neg (joinSegs_ne_nil s0 L0 hs0)]
        have hfix := goClean_unrooted_fixed dots.reverse names.reverse
          (fun x hx => hdots x (List.mem_reverse.mp hx))
          (fun x hx => hnames x (List.mem_reverse.mp hx))
          (by rw [hcase]; simp)
        rw [hcase] at hfix
        exact hfix

/-- C10: path normalization is idempotent — normalizing an already
normalized path returns it unchanged, so stored lookup keys survive every
renormalizing comparison. -/
theorem normalizeZipPath_idem (p : String) :
    normalizeZipPath (normalizeZipPath p) = normalizeZipPath p := by
  unfold normalizeZipPath
  rw [String.ext_iff]
  dsimp only
  rw [replBackslash_fixed _
    (goClean_no_backslash _ (replBackslash_no_backslash p.data))]
  rw [goClean_idem]


end EpubSpec
